import Mathlib

/-!
# Verification of the LOOS rigid-body superposition / alignment core

A shallow embedding of the LOOS (Lightweight Object-Oriented Structure
library) alignment engine (`AG_linalg.cpp`), the DCD trajectory writer
(`dcdwriter.cpp` / `dcdwriter.hpp`), and the iterative ensemble alignment
used by the Convergence tools.

Machine floating-point (`double`) arithmetic is modelled by exact rational
arithmetic `ℚ`; the LAPACK routines `dsyev_` and `dgesvd_` are external
solvers, modelled as oracle functions whose output is constrained by the
mathematical contract of the routine (eigendecomposition / SVD) in the
hypotheses of the theorems that need it.
-/

open scoped Matrix

namespace Loos

/-- `GCoord`: an (x, y, z) triple of coordinates (`Coord<double>` in
`loos_defs.hpp`), with `double` modelled as `ℚ`. -/
structure GCoord where
  x : ℚ
  y : ℚ
  z : ℚ
deriving DecidableEq, Repr

namespace GCoord

def add (p q : GCoord) : GCoord := ⟨p.x + q.x, p.y + q.y, p.z + q.z⟩

def neg (p : GCoord) : GCoord := ⟨-p.x, -p.y, -p.z⟩

def sub (p q : GCoord) : GCoord := ⟨p.x - q.x, p.y - q.y, p.z - q.z⟩

/-- Scalar multiplication of a coordinate. -/
def smul (a : ℚ) (p : GCoord) : GCoord := ⟨a * p.x, a * p.y, a * p.z⟩

/-- Componentwise division by a scalar (`operator/=` on `Coord`). -/
def sdiv (p : GCoord) (a : ℚ) : GCoord := ⟨p.x / a, p.y / a, p.z / a⟩

instance : Add GCoord := ⟨add⟩
instance : Neg GCoord := ⟨neg⟩
instance : Sub GCoord := ⟨sub⟩
instance : Zero GCoord := ⟨⟨0, 0, 0⟩⟩
instance : SMul ℚ GCoord := ⟨smul⟩

@[simp] theorem add_def (p q : GCoord) :
    p + q = ⟨p.x + q.x, p.y + q.y, p.z + q.z⟩ := rfl

@[simp] theorem neg_def (p : GCoord) : -p = ⟨-p.x, -p.y, -p.z⟩ := rfl

@[simp] theorem sub_def (p q : GCoord) :
    p - q = ⟨p.x - q.x, p.y - q.y, p.z - q.z⟩ := rfl

@[simp] theorem smul_def (a : ℚ) (p : GCoord) :
    a • p = ⟨a * p.x, a * p.y, a * p.z⟩ := rfl

@[simp] theorem zero_x : (0 : GCoord).x = 0 := rfl

@[simp] theorem zero_y : (0 : GCoord).y = 0 := rfl

@[simp] theorem zero_z : (0 : GCoord).z = 0 := rfl

theorem zero_def : (0 : GCoord) = ⟨0, 0, 0⟩ := rfl

/-- View a coordinate as a 3-vector, for matrix-vector algebra. -/
def toVec (p : GCoord) : Fin 3 → ℚ := ![p.x, p.y, p.z]

@[simp] theorem toVec_zero (p : GCoord) : p.toVec 0 = p.x := rfl

@[simp] theorem toVec_one (p : GCoord) : p.toVec 1 = p.y := rfl

@[simp] theorem toVec_two (p : GCoord) : p.toVec 2 = p.z := rfl

@[simp] theorem toVec_mk_zero (p : GCoord) (h : 0 < 3) : p.toVec ⟨0, h⟩ = p.x := rfl

@[simp] theorem toVec_mk_one (p : GCoord) (h : 1 < 3) : p.toVec ⟨1, h⟩ = p.y := rfl

@[simp] theorem toVec_mk_two (p : GCoord) (h : 2 < 3) : p.toVec ⟨2, h⟩ = p.z := rfl

end GCoord

/-- One member of an `AtomicGroup`: a mutable coordinate and a mass (the
only `Atom` fields the alignment core reads). -/
structure LAtom where
  coords : GCoord
  mass : ℚ
deriving DecidableEq, Repr

/-- `AtomicGroup`: an ordered sequence of atoms; positional correspondence
(index `i` ↔ index `i`) is the pairing used by all alignment routines. -/
abbrev AtomicGroup := List LAtom

/-- Sum of a list of coordinates. -/
def coordSum (l : List GCoord) : GCoord := l.foldr GCoord.add 0

/-- Modelled from the spec: `AtomicGroup::centroid` (not under `src/`) is
the unweighted mean of all member coordinates. -/
def centroid (g : AtomicGroup) : GCoord :=
  (coordSum (g.map LAtom.coords)).sdiv (g.length : ℚ)

/-- Modelled from the spec: `AtomicGroup::centerOfMass` (not under `src/`)
is the mass-weighted mean of member coordinates. -/
def centerOfMass (g : AtomicGroup) : GCoord :=
  (coordSum (g.map (fun a => a.mass • a.coords))).sdiv
    ((g.map LAtom.mass).sum)

/-- 3×3 matrices of (modelled) doubles. -/
abbrev M3 := Matrix (Fin 3) (Fin 3) ℚ

/-- 4×4 homogeneous transform matrices (`GMatrix`). -/
abbrev M4 := Matrix (Fin 4) (Fin 4) ℚ

/-- The 4×4 homogeneous translation matrix by a vector `v`. -/
def T4 (v : GCoord) : M4 :=
  !![1, 0, 0, v.x;
     0, 1, 0, v.y;
     0, 0, 1, v.z;
     0, 0, 0, 1]

/-- Embed a 3×3 rotation block into a 4×4 homogeneous transform (a
default-constructed `GMatrix` is the identity; `superposition` then
overwrites the upper-left 3×3 block). -/
def rot4 (Z : M3) : M4 :=
  !![Z 0 0, Z 0 1, Z 0 2, 0;
     Z 1 0, Z 1 1, Z 1 2, 0;
     Z 2 0, Z 2 1, Z 2 2, 0;
     0,     0,     0,     1]

/-- The upper-left 3×3 (rotation) block of a homogeneous transform. -/
def rotBlock (W : M4) : M3 :=
  Matrix.of fun i j => W i.castSucc j.castSucc

/-- Modelled from the spec: `XForm` (not under `src/`) is a current 4×4
matrix built by composing primitives left-to-right; each primitive
right-multiplies onto the current matrix, so the final matrix applied to a
point performs the first-composed primitive last. -/
structure XForm where
  m : M4
deriving DecidableEq

namespace XForm

/-- `XForm::identity()`: reset the current matrix. -/
def identityW : XForm := ⟨1⟩

/-- `XForm::concat(M)`: right-multiply the current matrix by `M`. -/
def concat (W : XForm) (Z : M4) : XForm := ⟨W.m * Z⟩

/-- `XForm::translate(v)`: concatenate a translation by `v`. -/
def translate (W : XForm) (v : GCoord) : XForm := W.concat (T4 v)

/-- `XForm::current()`: the composed matrix. -/
def current (W : XForm) : M4 := W.m

end XForm

/-- Modelled from the spec: applying a homogeneous transform to a point
(`XForm`/`AtomicGroup::applyTransform`, not under `src/`): multiply the
4×4 matrix with the point as a homogeneous 4-vector (w = 1), then divide
by the resulting w when it is not already 1. -/
def applyXform (W : M4) (p : GCoord) : GCoord :=
  let hx := W 0 0 * p.x + W 0 1 * p.y + W 0 2 * p.z + W 0 3
  let hy := W 1 0 * p.x + W 1 1 * p.y + W 1 2 * p.z + W 1 3
  let hz := W 2 0 * p.x + W 2 1 * p.y + W 2 2 * p.z + W 2 3
  let hw := W 3 0 * p.x + W 3 1 * p.y + W 3 2 * p.z + W 3 3
  if hw = 1 then ⟨hx, hy, hz⟩ else ⟨hx / hw, hy / hw, hz / hw⟩

/-- Modelled from the spec: `AtomicGroup::applyTransform` (not under
`src/`) replaces every member coordinate with the transformed one, in
place. -/
def applyTransform (W : M4) (g : AtomicGroup) : AtomicGroup :=
  g.map fun a => { a with coords := applyXform W a.coords }

/-- Modelled from the spec: `AtomicGroup::transformedCoordsAsArray(W)`
(not under `src/`) extracts a fresh 3×N array of the member coordinates
with the transform `W` applied; the group itself is not touched. -/
def transformedCoordsAsArray (W : M4) (g : AtomicGroup) : List GCoord :=
  g.map fun a => applyXform W a.coords

/-- Outer product `x · yᵗ` of two coordinates. -/
def outer (p q : GCoord) : M3 :=
  Matrix.of fun i j => p.toVec i * q.toVec j

/-- `dgemm` cross-covariance of two 3×N coordinate arrays:
`R = X · Yᵗ = Σ_k x_k · y_kᵗ` (the `C = A·Bᵗ` call in
`AtomicGroup::superposition` and the `A·Aᵗ` call in
`AtomicGroup::principalAxes`). -/
def crossCov : List GCoord → List GCoord → M3
  | x :: xs, y :: ys => outer x y + crossCov xs ys
  | _, _ => 0

/-- The explicit cofactor expansion of the 3×3 determinant used at
`AG_linalg.cpp:222-223` (`R[i]` is column-major: `R[3j+i] = R(i,j)`). -/
def det3 (R : M3) : ℚ :=
  R 0 0 * R 1 1 * R 2 2 + R 0 1 * R 1 2 * R 2 0 + R 0 2 * R 1 0 * R 2 1 -
    R 0 0 * R 1 2 * R 2 1 - R 0 1 * R 1 0 * R 2 2 - R 0 2 * R 1 1 * R 2 0

/-- Negate the third column of a 3×3 matrix (the `U[6..8]` negation at
`AG_linalg.cpp:242-244`; column-major entries 6,7,8 form column 2). -/
def negThirdCol (U : M3) : M3 :=
  U.updateColumn 2 fun i => -(U i 2)

/-- `loos::NumericalError`: message plus the solver status code. -/
structure NumericalError where
  msg : String
  code : ℤ
deriving DecidableEq, Repr

/-- The output of LAPACK `dgesvd_` on a 3×3 matrix: `U`, the singular
values `S`, `Vᵗ`, and the status code `info`.  `dgesvd_` itself is
external to the repository; its output is constrained by hypotheses where
a claim needs the SVD contract. -/
structure SVD3 where
  U : M3
  S : Fin 3 → ℚ
  Vt : M3
  info : ℤ
deriving DecidableEq

/-- `sv` is a valid full SVD of `R`: `R = U·diag(S)·Vᵗ` with `U`, `Vᵗ`
orthogonal and nonnegative singular values (the `dgesvd_` contract,
exactness of `double` arithmetic idealized away). -/
def SVD3.valid (sv : SVD3) (R : M3) : Prop :=
  R = sv.U * Matrix.diagonal sv.S * sv.Vt ∧
    sv.U.transpose * sv.U = 1 ∧
    sv.Vt * sv.Vt.transpose = 1 ∧
    ∀ i, 0 ≤ sv.S i

/-- The cross-covariance matrix `R` computed inside
`AtomicGroup::superposition`: both groups are centered by their centroids
(via `XForm` translations and `transformedCoordsAsArray`), and
`R = X·Yᵗ` is formed by `dgemm`. -/
def supCrossCov (mov ref : AtomicGroup) : M3 :=
  crossCov
    (transformedCoordsAsArray
      (XForm.identityW.translate (-(centroid mov))).current mov)
    (transformedCoordsAsArray
      (XForm.identityW.translate (-(centroid ref))).current ref)

/-- `AtomicGroup::superposition` (`AG_linalg.cpp:188-281`), with the
`dgesvd_` call abstracted as the oracle `svd`.  Both groups are centered
by their centroids, the cross-covariance `R = X·Yᵗ` and its cofactor
determinant are computed, the SVD is taken (propagating a nonzero solver
status as a `NumericalError`), `U`'s third column is negated when
`det < 0`, the rotation scratch `M = U·Vᵗ` is computed column-major and
installed into `Z` row-major (so `Z = (U·Vᵗ)ᵗ`), and the final transform
is composed as identity → translate(yc) → concat(Z) → translate(-xc). -/
def superposition (mov ref : AtomicGroup) (svd : M3 → SVD3) :
    Except NumericalError M4 :=
  let xc := centroid mov
  let yc := centroid ref
  let R := supCrossCov mov ref
  let det := det3 R
  let sv := svd R
  if sv.info ≠ 0 then
    .error ⟨"SVD in AtomicGroup::superposition returned an error", sv.info⟩
  else
    let U := if det < 0 then negThirdCol sv.U else sv.U
    let Z := (U * sv.Vt).transpose
    .ok ((((XForm.identityW.translate yc).concat (rot4 Z)).translate
      (-xc)).current)

/-- `AtomicGroup::alignOnto` (`AG_linalg.cpp:284-292`): compute the
superposition transform, apply it to the moving group's coordinates in
place, and return the transform.  The result pairs the mutated group with
the returned matrix. -/
def alignOnto (mov ref : AtomicGroup) (svd : M3 → SVD3) :
    Except NumericalError (AtomicGroup × M4) :=
  match superposition mov ref svd with
  | .error e => .error e
  | .ok M => .ok (applyTransform M mov, M)

/-- `AtomicGroup::superposition` with the post-call states of both groups
made explicit: the body only reads the groups through `centroid` and
`transformedCoordsAsArray` (both `const`; the latter returns freshly
allocated copies, per the spec), so both groups come out exactly as they
went in. -/
def superpositionFull (mov ref : AtomicGroup) (svd : M3 → SVD3) :
    AtomicGroup × AtomicGroup × Except NumericalError M4 :=
  (mov, ref, superposition mov ref svd)

/-- The output of LAPACK `dsyev_` (jobz = 'V') on a symmetric 3×3 matrix:
the eigenvector matrix `Z` (overwriting the input, one eigenvector per
column), the eigenvalues `W` in ascending order, and the status `info`.
External to the repository; constrained by hypotheses where needed. -/
structure EigResult where
  Z : M3
  W : Fin 3 → ℚ
  info : ℤ
deriving DecidableEq

/-- Column `i` of a 3×3 matrix read out as a `GCoord`
(`GCoord(I(0,i), I(1,i), I(2,i))` in the source). -/
def colCoord (Z : M3) (i : Fin 3) : GCoord := ⟨Z 0 i, Z 1 i, Z 2 i⟩

/-- The six accumulators of the inertia-tensor loop
(`AG_linalg.cpp:51-61`), over positions `u` relative to the center of
mass: `I(0,0) += m(u.y²+u.z²)`, `I(1,0) += m·u.x·u.y`,
`I(2,0) += m·u.x·u.z`, `I(1,1) += m(u.x²+u.z²)`, `I(2,1) += m·u.y·u.z`,
`I(2,2) += m(u.x²+u.y²)`. -/
def inertiaSum (g : AtomicGroup) (c : GCoord) (f : GCoord → ℚ → ℚ) : ℚ :=
  (g.map fun a => f (a.coords - c) a.mass).sum

/-- The symmetric 3×3 matrix assembled by `AtomicGroup::momentsOfInertia`
(`AG_linalg.cpp:47-66`): the six accumulated sums, with the off-diagonal
entries negated and mirrored at the end
(`I(1,0) = I(0,1) = -I(1,0)` etc.). -/
def inertiaTensor (g : AtomicGroup) : M3 :=
  let c := centerOfMass g
  let s00 := inertiaSum g c fun u m => m * (u.y * u.y + u.z * u.z)
  let s10 := inertiaSum g c fun u m => m * u.x * u.y
  let s20 := inertiaSum g c fun u m => m * u.x * u.z
  let s11 := inertiaSum g c fun u m => m * (u.x * u.x + u.z * u.z)
  let s21 := inertiaSum g c fun u m => m * u.y * u.z
  let s22 := inertiaSum g c fun u m => m * (u.x * u.x + u.y * u.y)
  !![s00, -s10, -s20;
     -s10, s11, -s21;
     -s20, -s21, s22]

/-- The standard single-atom inertia tensor of the claim: diagonal
`m(u.y²+u.z²)`, `m(u.x²+u.z²)`, `m(u.x²+u.y²)` and symmetric
off-diagonal `-m·u.x·u.y`, `-m·u.x·u.z`, `-m·u.y·u.z`. -/
def atomInertia (u : GCoord) (m : ℚ) : M3 :=
  !![m * (u.y * u.y + u.z * u.z), -(m * u.x * u.y), -(m * u.x * u.z);
     -(m * u.x * u.y), m * (u.x * u.x + u.z * u.z), -(m * u.y * u.z);
     -(m * u.x * u.z), -(m * u.y * u.z), m * (u.x * u.x + u.y * u.y)]

/-- The claimed form of the inertia tensor: the sum over members of the
standard per-atom inertia tensor at positions relative to the center of
mass. -/
def specInertiaTensor (g : AtomicGroup) : M3 :=
  let c := centerOfMass g
  (g.map fun a => atomInertia (a.coords - c) a.mass).sum

/-- `AtomicGroup::momentsOfInertia` (`AG_linalg.cpp:47-100`) with the
`dsyev_` call abstracted as the oracle `dsyev`: build the inertia tensor,
eigendecompose it, raise a `NumericalError` carrying `info` when the
solver reports an argument error (`info < 0`) or fails to converge
(`info > 0`); otherwise return 4 entries — `results[2-i]` is eigenvector
column `i`, and the last entry packs the eigenvalues `(W2, W1, W0)`
divided by the group size. -/
def momentsOfInertia (g : AtomicGroup) (dsyev : M3 → EigResult) :
    Except NumericalError (List GCoord) :=
  let I := inertiaTensor g
  let e := dsyev I
  if e.info < 0 then .error ⟨"dsyev_ reported an argument error.", e.info⟩
  else if 0 < e.info then .error ⟨"dsyev_ failed to converge.", e.info⟩
  else
    .ok [colCoord e.Z 2, colCoord e.Z 1, colCoord e.Z 0,
      (GCoord.mk (e.W 2) (e.W 1) (e.W 0)).sdiv (g.length : ℚ)]

/-- The scatter matrix of `AtomicGroup::principalAxes`
(`AG_linalg.cpp:103-144`): subtract the mean from the coordinate array
and form `C = A·Aᵗ` by `dgemm`. -/
def scatterMatrix (g : AtomicGroup) : M3 :=
  let M := centroid g
  let A := g.map fun a => a.coords - M
  crossCov A A

/-- `AtomicGroup::principalAxes` (`AG_linalg.cpp:103-183`) with the
`dsyev_` call abstracted: eigendecompose the scatter matrix; same error
propagation and the same 4-entry output layout as `momentsOfInertia`. -/
def principalAxes (g : AtomicGroup) (dsyev : M3 → EigResult) :
    Except NumericalError (List GCoord) :=
  let C := scatterMatrix g
  let e := dsyev C
  if e.info < 0 then .error ⟨"dsyev_ reported an argument error.", e.info⟩
  else if 0 < e.info then .error ⟨"dsyev_ failed to converge.", e.info⟩
  else
    .ok [colCoord e.Z 2, colCoord e.Z 1, colCoord e.Z 0,
      (GCoord.mk (e.W 2) (e.W 1) (e.W 0)).sdiv (g.length : ℚ)]

/-- The `dsyev_` contract when it succeeds with jobz = 'V' on `A`:
status 0, each output column an eigenvector of `A` for the corresponding
eigenvalue, eigenvalues in ascending order. -/
def EigResult.valid (e : EigResult) (A : M3) : Prop :=
  e.info = 0 ∧
    (∀ i : Fin 3, A.mulVec ((colCoord e.Z i).toVec) =
      e.W i • (colCoord e.Z i).toVec) ∧
    e.W 0 ≤ e.W 1 ∧ e.W 1 ≤ e.W 2

/-- Squared Euclidean distance of two points. -/
def sqDist (p q : GCoord) : ℚ :=
  (p.x - q.x) ^ 2 + (p.y - q.y) ^ 2 + (p.z - q.z) ^ 2

/-- Modelled from the spec: the mean squared deviation over corresponding
members, `(1/N)·Σ |pᵢ - qᵢ|²` (the square of the spec's RMSD;
`AtomicGroup::rmsd` is not under `src/`). -/
def msd (g h : AtomicGroup) : ℚ :=
  ((g.zip h).map fun ab => sqDist ab.1.coords ab.2.coords).sum /
    (g.length : ℚ)

/-- Modelled from the spec: `RMSD = sqrt((1/N)·Σ |pᵢ - qᵢ|²)`. -/
noncomputable def rmsd (g h : AtomicGroup) : ℝ :=
  Real.sqrt (msd g h)

/-- Index-wise sums of coordinates over an ensemble (step (b) of the
iterative alignment algorithm). -/
def coordSums : List AtomicGroup → List GCoord
  | [] => []
  | [g] => g.map LAtom.coords
  | g :: rest => List.zipWith (· + ·) (g.map LAtom.coords) (coordSums rest)

/-- Modelled from the spec: the ensemble average structure — for each
index across all members, the mean of the coordinates at that index
(atom metadata taken from the first member). -/
def avgStructure (ens : List AtomicGroup) : AtomicGroup :=
  match ens with
  | [] => []
  | g₀ :: _ =>
    List.zipWith (fun a c => { a with coords := c.sdiv (ens.length : ℚ) })
      g₀ (coordSums ens)

/-- Step (a) of the iterative alignment: `alignOnto` every member onto
the current reference, collecting the mutated members and the transforms
used.  A solver failure propagates. -/
def alignAll (svd : M3 → SVD3) (ens : List AtomicGroup)
    (ref : AtomicGroup) : Except NumericalError (List AtomicGroup × List M4) :=
  match ens with
  | [] => .ok ([], [])
  | g :: rest =>
    match alignOnto g ref svd, alignAll svd rest ref with
    | .ok (g', M), .ok (gs, Ms) => .ok (g' :: gs, M :: Ms)
    | .error e, _ => .error e
    | _, .error e => .error e

/-- Modelled from the spec: one round plus recursion of the iterative
alignment loop.  `fuel` is the remaining iteration budget; each round
aligns all members onto the reference, forms the new average, computes
the squared deviation `d = msd(avg, ref)` (the spec's convergence test
`RMSD < tol` is equivalent to `msd < tol²`, so the threshold is passed
squared), stops when converged or when the budget is exhausted, and
otherwise recurses with the new average as reference. -/
def iterGo (svd : M3 → SVD3) (tolSq : ℚ) :
    ℕ → List AtomicGroup → AtomicGroup → ℕ →
    Except NumericalError (List M4 × ℚ × ℕ)
  | 0, _, _, count => .ok ([], 0, count)
  | fuel + 1, ens, ref, count =>
    match alignAll svd ens ref with
    | .error e => .error e
    | .ok (aligned, xfs) =>
      let avg := avgStructure aligned
      let d := msd avg ref
      if d < tolSq ∨ fuel = 0 then .ok (xfs, d, count + 1)
      else iterGo svd tolSq fuel aligned avg (count + 1)

/-- Modelled from the spec: `iterativeAlignment(ensemble)` — initial
reference is the first member; iterate up to `maxIter` times; return the
final iteration's transforms, its convergence deviation, and the number
of iterations performed. -/
def iterativeAlignment (svd : M3 → SVD3) (tolSq : ℚ) (maxIter : ℕ)
    (ens : List AtomicGroup) : Except NumericalError (List M4 × ℚ × ℕ) :=
  iterGo svd tolSq maxIter ens (ens.headD []) 0

/-! ## The DCD trajectory writer (`dcdwriter.cpp` / `dcdwriter.hpp`)

The byte-level F77 record framing (4-byte length prefix/suffix, the
`DataOverlay` union, 80-byte fixed-width titles, IEEE float coordinates)
is abstracted to structured records: the file is the header block (the
three F77 records `writeHeader` emits, with fixed layout for fixed
titles) followed by one record group per frame.  A seek-to-0 +
`writeHeader` + seek-to-end therefore replaces the header block in place
and leaves the frame records untouched.  Streams are modelled as
non-failing (the `_ofs()->fail()` check never fires). -/

/-- The header block written by `DCDWriter::writeHeader`: the `icntrl`
record (frame count `_nsteps`, timestep, box flag), the titles record,
and the atom-count record. -/
structure DCDHeader where
  nsteps : ℕ
  natoms : ℕ
  timestep : ℚ
  hasBox : Bool
  titles : List String
deriving DecidableEq, Repr

/-- One frame's record group: the optional 6-double unit-cell record and
the three per-axis coordinate records. -/
structure DCDFrameRec where
  box : Option GCoord
  xs : List ℚ
  ys : List ℚ
  zs : List ℚ
deriving DecidableEq, Repr

/-- The written stream: an optional header block at the start of the
file, then the appended frame record groups. -/
structure DCDFile where
  header : Option DCDHeader
  frames : List DCDFrameRec
deriving DecidableEq, Repr

/-- The `DCDWriter` members that `writeFrame` reads and writes
(`dcdwriter.hpp:239-247`), plus the stream contents. -/
structure DCDWriterState where
  natoms : ℕ
  nsteps : ℕ
  timestep : ℚ
  current : ℕ
  hasBox : Bool
  titles : List String
  file : DCDFile
deriving DecidableEq, Repr

/-- The aspects of an `AtomicGroup` that `DCDWriter::writeFrame` reads:
the member coordinates, and the periodic box when present
(`isPeriodic()` / `periodicBox()`). -/
structure FrameGroup where
  coords : List GCoord
  box : Option GCoord
deriving DecidableEq, Repr

/-- `DCDWriter::writeHeader` (`dcdwriter.cpp:60-94`): emit the header
block for the current member values.  Re-emitting replaces the block in
place (same three records, same layout). -/
def dcdWriteHeader (s : DCDWriterState) : DCDWriterState :=
  { s with file := { s.file with
      header := some ⟨s.nsteps, s.natoms, s.timestep, s.hasBox, s.titles⟩ } }

/-- `DCDWriter::writeFrame` (`dcdwriter.cpp:107-153`).  On the first
frame the atom count and box flag are established from the group; later
frames must match them, and a mismatch throws (modelled as `.error`,
carrying the state at the throw point — in the source, the throws
precede every member mutation and every stream write).  When the frames
already written (`_current`) have reached the declared count
(`_nsteps`), the writer seeks to the start, increments `_nsteps`,
rewrites the header in place, and seeks back to the end, before
appending the frame's records. -/
def dcdWriteFrame (s : DCDWriterState) (grp : FrameGroup) :
    Except (String × DCDWriterState) DCDWriterState :=
  if s.natoms ≠ 0 ∧ grp.coords.length ≠ s.natoms then
    .error ("Frame group atom count mismatch", s)
  else if s.natoms ≠ 0 ∧ s.hasBox ∧ grp.box = none then
    .error ("Periodic box data was requested for the DCD but the passed frame is missing it", s)
  else
    let s₀ := if s.natoms = 0 then
        { s with natoms := grp.coords.length, hasBox := grp.box.isSome }
      else s
    let s₁ := if s₀.nsteps ≤ s₀.current then
        dcdWriteHeader { s₀ with nsteps := s₀.nsteps + 1 }
      else s₀
    let fr : DCDFrameRec :=
      ⟨if s₁.hasBox then some (grp.box.getD 0) else none,
        (grp.coords.take s₁.natoms).map GCoord.x,
        (grp.coords.take s₁.natoms).map GCoord.y,
        (grp.coords.take s₁.natoms).map GCoord.z⟩
    .ok { s₁ with
      file := { s₁.file with frames := s₁.file.frames ++ [fr] },
      current := s₁.current + 1 }

/-! ## Helper lemmas -/

@[simp] theorem fin3_mk_zero (h : 0 < 3) : (⟨0, h⟩ : Fin 3) = 0 := rfl

@[simp] theorem fin3_mk_one (h : 1 < 3) : (⟨1, h⟩ : Fin 3) = 1 := rfl

@[simp] theorem fin3_mk_two (h : 2 < 3) : (⟨2, h⟩ : Fin 3) = 2 := rfl

@[simp] theorem fin4_mk_zero (h : 0 < 4) : (⟨0, h⟩ : Fin 4) = 0 := rfl

@[simp] theorem fin4_mk_one (h : 1 < 4) : (⟨1, h⟩ : Fin 4) = 1 := rfl

@[simp] theorem fin4_mk_two (h : 2 < 4) : (⟨2, h⟩ : Fin 4) = 2 := rfl

@[simp] theorem fin4_mk_three (h : 3 < 4) : (⟨3, h⟩ : Fin 4) = 3 := rfl

/-- Entry of a list-sum of 3×3 matrices. -/
theorem sumM3_apply (l : List M3) (i j : Fin 3) :
    l.sum i j = (l.map fun A => A i j).sum := by
  induction l with
  | nil => simp [Matrix.zero_apply]
  | cons A l ih => simp [List.sum_cons, Matrix.add_apply, ih]

/-- Negation moves out of a list sum. -/
theorem sum_map_negQ {α : Type} (l : List α) (f : α → ℚ) :
    (l.map fun a => -(f a)).sum = -((l.map f).sum) := by
  induction l with
  | nil => simp
  | cons a l ih =>
    rw [List.map_cons, List.sum_cons, List.map_cons, List.sum_cons, ih]
    ring

/-- The cofactor expansion used in `superposition` is the 3×3
determinant. -/
theorem det3_eq_det (R : M3) : det3 R = R.det := by
  rw [Matrix.det_fin_three, det3]; ring

end Loos

namespace Loos

/-! ## C6: the inertia tensor accumulated by `momentsOfInertia` -/

/-- C6: for every point set, the symmetric 3×3 matrix that
`momentsOfInertia` decomposes equals the sum over members (with position
`u` relative to the center of mass and mass `m`) of the standard inertia
tensor: diagonal `m(u.y²+u.z²)`, `m(u.x²+u.z²)`, `m(u.x²+u.y²)` and
symmetric off-diagonal `-m·u.x·u.y`, `-m·u.x·u.z`, `-m·u.y·u.z`. -/
theorem C6_inertia_tensor_is_standard_sum (g : AtomicGroup) :
    inertiaTensor g = specInertiaTensor g := by
  unfold inertiaTensor specInertiaTensor
  ext i j
  rw [sumM3_apply, List.map_map]
  fin_cases i <;> fin_cases j <;>
    simp [inertiaSum, atomInertia, Function.comp_def, sum_map_negQ]

/-! ## C5: numerical-error propagation -/

/-- C5: `momentsOfInertia`, `principalAxes`, and `superposition` raise a
`NumericalError` carrying the solver status code exactly when the
underlying `dsyev_`/`dgesvd_` status is nonzero; on status zero they
return a result. -/
theorem C5_numerical_error_iff_nonzero_status (g : AtomicGroup)
    (dsyev : M3 → EigResult) (mov ref : AtomicGroup) (dgesvd : M3 → SVD3) :
    ((∃ e, momentsOfInertia g dsyev = .error e ∧
        e.code = (dsyev (inertiaTensor g)).info) ↔
      (dsyev (inertiaTensor g)).info ≠ 0) ∧
    ((∃ e, principalAxes g dsyev = .error e ∧
        e.code = (dsyev (scatterMatrix g)).info) ↔
      (dsyev (scatterMatrix g)).info ≠ 0) ∧
    ((∃ e, superposition mov ref dgesvd = .error e ∧
        e.code = (dgesvd (supCrossCov mov ref)).info) ↔
      (dgesvd (supCrossCov mov ref)).info ≠ 0) := by
  refine ⟨?_, ?_, ?_⟩
  · unfold momentsOfInertia
    rcases lt_trichotomy (dsyev (inertiaTensor g)).info 0 with h | h | h
    · simp only [if_pos h]
      exact ⟨fun _ => ne_of_lt h, fun _ => ⟨_, rfl, rfl⟩⟩
    · simp [h]
    · rw [if_neg (not_lt.mpr h.le), if_pos h]
      exact ⟨fun _ => ne_of_gt h, fun _ => ⟨_, rfl, rfl⟩⟩
  · unfold principalAxes
    rcases lt_trichotomy (dsyev (scatterMatrix g)).info 0 with h | h | h
    · simp only [if_pos h]
      exact ⟨fun _ => ne_of_lt h, fun _ => ⟨_, rfl, rfl⟩⟩
    · simp [h]
    · rw [if_neg (not_lt.mpr h.le), if_pos h]
      exact ⟨fun _ => ne_of_gt h, fun _ => ⟨_, rfl, rfl⟩⟩
  · unfold superposition
    by_cases h : (dgesvd (supCrossCov mov ref)).info = 0
    · simp [h]
    · simp only [if_pos h, ne_eq, h, not_false_iff, iff_true]
      exact ⟨_, rfl, rfl⟩

/-! ## C8 / C9: the DCD writer -/

/-- C8: when the frames already written have reached the declared frame
count, `writeFrame` rewrites the header in place with the frame count
incremented (the seek-to-start / rewrite / seek-to-end sequence), and
then appends the new frame's records at the end. -/
theorem C8_writeFrame_extends_header (s : DCDWriterState) (grp : FrameGroup)
    (s' : DCDWriterState) (hok : dcdWriteFrame s grp = .ok s')
    (hfull : s.nsteps ≤ s.current) :
    s'.nsteps = s.nsteps + 1 ∧
    s'.file.header = some ⟨s.nsteps + 1,
      (if s.natoms = 0 then grp.coords.length else s.natoms), s.timestep,
      (if s.natoms = 0 then grp.box.isSome else s.hasBox), s.titles⟩ ∧
    (∃ fr, s'.file.frames = s.file.frames ++ [fr]) ∧
    s'.current = s.current + 1 := by
  unfold dcdWriteFrame at hok
  by_cases h1 : s.natoms ≠ 0 ∧ grp.coords.length ≠ s.natoms
  · rw [if_pos h1] at hok; exact absurd hok (by simp)
  rw [if_neg h1] at hok
  by_cases h2 : s.natoms ≠ 0 ∧ s.hasBox ∧ grp.box = none
  · rw [if_pos h2] at hok; exact absurd hok (by simp)
  rw [if_neg h2] at hok
  by_cases h0 : s.natoms = 0 <;>
    simp only [h0, if_pos, if_neg, if_true, if_false] at hok <;>
    rw [if_pos (by simpa using hfull)] at hok <;>
    · injection hok with hok
      subst hok
      simp [dcdWriteHeader, h0]

/-- C9: after the first frame, a size mismatch or a missing periodic box
(when box records were established) makes `writeFrame` throw before any
byte is written: the error carries the unchanged writer state (stream
contents, frames-written counter, and header fields all equal to the
pre-call state). -/
theorem C9_writeFrame_mismatch_throws_unchanged (s : DCDWriterState)
    (grp : FrameGroup) (h0 : s.natoms ≠ 0)
    (hbad : grp.coords.length ≠ s.natoms ∨ (s.hasBox ∧ grp.box = none)) :
    ∃ msg, dcdWriteFrame s grp = .error (msg, s) := by
  unfold dcdWriteFrame
  by_cases h1 : grp.coords.length ≠ s.natoms
  · exact ⟨_, by rw [if_pos ⟨h0, h1⟩]⟩
  · rcases hbad with hbad | hbad
    · exact absurd hbad h1
    · exact ⟨_, by rw [if_neg (by tauto), if_pos ⟨h0, hbad⟩]⟩

/-! ## C10: `superposition` mutates nothing; only `alignOnto` applies -/

/-- C10: `superposition` leaves both groups' stored coordinates exactly
as they were (it works on freshly extracted coordinate copies), and the
group coming out of `alignOnto` is precisely the moving group with the
returned transform applied — the only coordinate mutation in the
pipeline. -/
theorem C10_superposition_pure_alignOnto_applies (mov ref : AtomicGroup)
    (svd : M3 → SVD3) (g' : AtomicGroup) (M : M4)
    (h : alignOnto mov ref svd = .ok (g', M)) :
    (superpositionFull mov ref svd).1 = mov ∧
    (superpositionFull mov ref svd).2.1 = ref ∧
    superposition mov ref svd = .ok M ∧
    g' = applyTransform M mov := by
  refine ⟨rfl, rfl, ?_⟩
  unfold alignOnto at h
  cases hsp : superposition mov ref svd with
  | error e => rw [hsp] at h; exact absurd h (by simp)
  | ok N =>
    rw [hsp] at h
    injection h with h
    injection h with ha hb
    subst hb
    exact ⟨rfl, ha.symm⟩

/-! ## Transform algebra -/

theorem T4_mul_T4 (a b : GCoord) : T4 a * T4 b = T4 (a + b) := by
  ext i j
  fin_cases i <;> fin_cases j <;>
    simp [T4, Matrix.mul_apply, Fin.sum_univ_four, Matrix.vecHead,
      Matrix.vecTail, add_comm]

theorem T4_zero : T4 0 = 1 := by
  ext i j
  fin_cases i <;> fin_cases j <;>
    simp [T4, Matrix.one_apply, Matrix.vecHead, Matrix.vecTail]

theorem rot4_one : rot4 (1 : M3) = 1 := by
  ext i j
  fin_cases i <;> fin_cases j <;>
    simp [rot4, Matrix.one_apply, Matrix.vecHead, Matrix.vecTail]

theorem add_neg_cancel' (a : GCoord) : a + -a = 0 := by
  simp [GCoord.zero_def]

/-- Closed form of a successful `superposition` run: the returned matrix
is `T(yc) · rot4(Z) · T(-xc)` with `Z = (U'·Vᵗ)ᵗ`, where `U'` is `U` with
its third column negated exactly when the cofactor determinant of the
cross-covariance matrix is negative. -/
theorem superposition_eq_ok (mov ref : AtomicGroup) (svd : M3 → SVD3)
    (h : (svd (supCrossCov mov ref)).info = 0) :
    superposition mov ref svd = .ok (T4 (centroid ref) *
      rot4 (((if det3 (supCrossCov mov ref) < 0 then
          negThirdCol (svd (supCrossCov mov ref)).U
        else (svd (supCrossCov mov ref)).U) *
        (svd (supCrossCov mov ref)).Vt).transpose) *
      T4 (-(centroid mov))) := by
  unfold superposition
  rw [if_neg (by simp [h])]
  simp [XForm.identityW, XForm.translate, XForm.concat, XForm.current]

/-- The rotation block of the composed transform is exactly `Z`. -/
theorem rotBlock_compose (a b : GCoord) (Z : M3) :
    rotBlock (T4 a * rot4 Z * T4 b) = Z := by
  ext i j
  fin_cases i <;> fin_cases j <;>
    simp [rotBlock, T4, rot4, Matrix.mul_apply, Fin.sum_univ_four,
      Matrix.vecHead, Matrix.vecTail, Fin.castSucc, Fin.castAdd, Fin.castLE]

@[simp] theorem GCoord.mk_xyz (p : GCoord) :
    (⟨p.x, p.y, p.z⟩ : GCoord) = p := rfl

theorem GCoord.neg_zero' : -(0 : GCoord) = 0 := by simp [GCoord.zero_def]

/-- Applying a pure translation moves every point by the vector. -/
theorem applyXform_T4 (v p : GCoord) : applyXform (T4 v) p = p + v := by
  simp [applyXform, T4, Matrix.vecHead, Matrix.vecTail, add_comm]

/-- The centering step of `superposition`: the extracted array is the
coordinates translated by `u`. -/
theorem transformedCoordsAsArray_translate (u : GCoord) (g : AtomicGroup) :
    transformedCoordsAsArray (XForm.identityW.translate u).current g =
      g.map fun a => a.coords + u := by
  simp [transformedCoordsAsArray, XForm.identityW, XForm.translate,
    XForm.concat, XForm.current, applyXform_T4]

/-- When a group's centroid is zero, the centered array of
`superposition` is just the raw coordinate list. -/
theorem centeredArray_of_centroid_zero (g : AtomicGroup)
    (h : centroid g = 0) :
    transformedCoordsAsArray
      (XForm.identityW.translate (-(centroid g))).current g =
      g.map LAtom.coords := by
  rw [h, GCoord.neg_zero', transformedCoordsAsArray_translate]
  simp

end Loos

namespace Loos

/-! ## C1: composition of the returned transform

Concrete refutation input: two centroid-zero point sets whose
cross-covariance matrix is twice the 90°-about-Z rotation, together with
a valid SVD of it (`U` the rotation, `S = (2,2,2)`, `Vᵗ = 1`).  The code
installs the `dgemm` scratch `M = U·Vᵗ` into the transform row-major,
i.e. transposed, so the concatenated rotation is `(U·Vᵗ)ᵗ = V·Uᵗ`, not
the claim's `U·Vᵗ`. -/

def c1mov : AtomicGroup :=
  [⟨⟨1, 0, 0⟩, 1⟩, ⟨⟨0, 1, 0⟩, 1⟩, ⟨⟨0, 0, 1⟩, 1⟩,
   ⟨⟨-1, 0, 0⟩, 1⟩, ⟨⟨0, -1, 0⟩, 1⟩, ⟨⟨0, 0, -1⟩, 1⟩]

def c1ref : AtomicGroup :=
  [⟨⟨0, -1, 0⟩, 1⟩, ⟨⟨1, 0, 0⟩, 1⟩, ⟨⟨0, 0, 1⟩, 1⟩,
   ⟨⟨0, 1, 0⟩, 1⟩, ⟨⟨-1, 0, 0⟩, 1⟩, ⟨⟨0, 0, -1⟩, 1⟩]

/-- The 90°-about-Z rotation matrix. -/
def rz90 : M3 := !![0, -1, 0; 1, 0, 0; 0, 0, 1]

/-- A `dgesvd_` oracle whose answer on the cross-covariance of `c1mov`
and `c1ref` (which is `2·rz90`) is the valid SVD
`U = rz90, S = (2,2,2), Vᵗ = 1`. -/
def c1svd : M3 → SVD3 := fun _ => ⟨rz90, ![2, 2, 2], 1, 0⟩

theorem c1mov_centroid : centroid c1mov = 0 := by
  norm_num [centroid, c1mov, coordSum, GCoord.add, GCoord.sdiv]
  rfl

theorem c1ref_centroid : centroid c1ref = 0 := by
  norm_num [centroid, c1ref, coordSum, GCoord.add, GCoord.sdiv]
  rfl

theorem c1_crossCov : supCrossCov c1mov c1ref = !![0, -2, 0; 2, 0, 0; 0, 0, 2] := by
  unfold supCrossCov
  rw [centeredArray_of_centroid_zero c1mov c1mov_centroid,
    centeredArray_of_centroid_zero c1ref c1ref_centroid]
  ext i j
  fin_cases i <;> fin_cases j <;>
    norm_num [crossCov, c1mov, c1ref, outer, Matrix.add_apply,
      Matrix.zero_apply, Matrix.vecHead, Matrix.vecTail]

/-- C1, counterexample: at this input the returned transform concatenates
the transposed scratch `(U·Vᵗ)ᵗ`, which differs from the claim's
composition with rotation `M = U·Vᵗ` (no reflection correction applies:
the cofactor determinant is `8 > 0`). -/
theorem C1_counterexample :
    superposition c1mov c1ref c1svd =
      .ok (T4 (centroid c1ref) *
        rot4 (((c1svd (supCrossCov c1mov c1ref)).U *
          (c1svd (supCrossCov c1mov c1ref)).Vt).transpose) *
        T4 (-(centroid c1mov))) ∧
    T4 (centroid c1ref) *
        rot4 (((c1svd (supCrossCov c1mov c1ref)).U *
          (c1svd (supCrossCov c1mov c1ref)).Vt).transpose) *
        T4 (-(centroid c1mov)) ≠
      T4 (centroid c1ref) *
        rot4 ((c1svd (supCrossCov c1mov c1ref)).U *
          (c1svd (supCrossCov c1mov c1ref)).Vt) *
        T4 (-(centroid c1mov)) := by
  have hdet : ¬ det3 (supCrossCov c1mov c1ref) < 0 := by
    rw [c1_crossCov]
    norm_num [det3, Matrix.vecHead, Matrix.vecTail]
  constructor
  · rw [superposition_eq_ok c1mov c1ref c1svd rfl, if_neg hdet]
  · rw [c1mov_centroid, c1ref_centroid, GCoord.neg_zero', T4_zero]
    intro heq
    simp only [one_mul, mul_one] at heq
    have h01 := congrFun (congrFun heq 0) 1
    simp [rot4, c1svd, rz90, Matrix.transpose_apply, Matrix.mul_one,
      Matrix.vecHead, Matrix.vecTail] at h01
    exact absurd h01 (by norm_num)

/-- C1, amended: the transform is composed exactly as identity →
translate by the reference's centroid → concatenate the rotation
`Z = (U'·Vᵗ)ᵗ = V·U'ᵗ` — the transpose of the claim's `M = U'·Vᵗ`, since
the code computes `M` in column-major scratch and installs it row-major —
(with `U'` the reflection-corrected `U`) → translate by the negative of
the moving set's centroid. -/
theorem C1_amended_composition (mov ref : AtomicGroup) (svd : M3 → SVD3)
    (h : (svd (supCrossCov mov ref)).info = 0) :
    superposition mov ref svd = .ok (T4 (centroid ref) *
      rot4 (((if det3 (supCrossCov mov ref) < 0 then
          negThirdCol (svd (supCrossCov mov ref)).U
        else (svd (supCrossCov mov ref)).U) *
        (svd (supCrossCov mov ref)).Vt).transpose) *
      T4 (-(centroid mov))) :=
  superposition_eq_ok mov ref svd h

/-- C1, witness: the amended composition theorem applied at the concrete
input. -/
theorem C1_amended_witness :
    (c1svd (supCrossCov c1mov c1ref)).info = 0 ∧
    superposition c1mov c1ref c1svd = .ok (T4 (centroid c1ref) *
      rot4 (((if det3 (supCrossCov c1mov c1ref) < 0 then
          negThirdCol (c1svd (supCrossCov c1mov c1ref)).U
        else (c1svd (supCrossCov c1mov c1ref)).U) *
        (c1svd (supCrossCov c1mov c1ref)).Vt).transpose) *
      T4 (-(centroid c1mov))) :=
  ⟨rfl, C1_amended_composition c1mov c1ref c1svd rfl⟩

/-! ## Witness inputs for the DCD writer claims -/

def w8fr : DCDFrameRec := ⟨none, [7, 8], [7, 8], [7, 8]⟩

def w8s : DCDWriterState :=
  ⟨2, 1, 1, 1, false, ["T"], ⟨some ⟨1, 2, 1, false, ["T"]⟩, [w8fr]⟩⟩

def w8g : FrameGroup := ⟨[⟨1, 2, 3⟩, ⟨4, 5, 6⟩], none⟩

def w8s' : DCDWriterState :=
  ⟨2, 2, 1, 2, false, ["T"],
    ⟨some ⟨2, 2, 1, false, ["T"]⟩, [w8fr, ⟨none, [1, 4], [2, 5], [3, 6]⟩]⟩⟩

theorem C8_witness :
    dcdWriteFrame w8s w8g = .ok w8s' ∧ w8s.nsteps ≤ w8s.current ∧
    (w8s'.nsteps = w8s.nsteps + 1 ∧
      w8s'.file.header = some ⟨w8s.nsteps + 1,
        (if w8s.natoms = 0 then w8g.coords.length else w8s.natoms),
        w8s.timestep,
        (if w8s.natoms = 0 then w8g.box.isSome else w8s.hasBox),
        w8s.titles⟩ ∧
      (∃ fr, w8s'.file.frames = w8s.file.frames ++ [fr]) ∧
      w8s'.current = w8s.current + 1) :=
  ⟨rfl, by decide,
    C8_writeFrame_extends_header w8s w8g w8s' rfl (by decide)⟩

def w9s : DCDWriterState :=
  ⟨2, 5, 1, 1, false, ["T"], ⟨some ⟨5, 2, 1, false, ["T"]⟩, [w8fr]⟩⟩

def w9g : FrameGroup := ⟨[⟨1, 1, 1⟩, ⟨2, 2, 2⟩, ⟨3, 3, 3⟩], none⟩

theorem C9_witness :
    w9s.natoms ≠ 0 ∧
    (w9g.coords.length ≠ w9s.natoms ∨ (w9s.hasBox ∧ w9g.box = none)) ∧
    ∃ msg, dcdWriteFrame w9s w9g = .error (msg, w9s) :=
  ⟨by decide, Or.inl (by decide),
    C9_writeFrame_mismatch_throws_unchanged w9s w9g (by decide)
      (Or.inl (by decide))⟩

/-! ## Witness input for C10 -/

def c10mov : AtomicGroup := [⟨⟨1, 2, 3⟩, 1⟩]

def c10ref : AtomicGroup := [⟨⟨1, 2, 3⟩, 1⟩]

def c10svd : M3 → SVD3 := fun _ => ⟨1, ![0, 0, 0], 1, 0⟩

def c10M : M4 :=
  T4 (centroid c10ref) *
    rot4 (((c10svd (supCrossCov c10mov c10ref)).U *
      (c10svd (supCrossCov c10mov c10ref)).Vt).transpose) *
    T4 (-(centroid c10mov))

theorem c10_crossCov_zero : supCrossCov c10mov c10ref = 0 := by
  unfold supCrossCov
  rw [transformedCoordsAsArray_translate, transformedCoordsAsArray_translate]
  ext i j
  fin_cases i <;> fin_cases j <;>
    norm_num [c10mov, c10ref, centroid, coordSum, GCoord.add, GCoord.sdiv,
      crossCov, outer, Matrix.add_apply, Matrix.zero_apply]

theorem c10_alignOnto :
    alignOnto c10mov c10ref c10svd =
      .ok (applyTransform c10M c10mov, c10M) := by
  have hdet : ¬ det3 (supCrossCov c10mov c10ref) < 0 := by
    rw [c10_crossCov_zero]
    norm_num [det3, Matrix.zero_apply]
  have hs : superposition c10mov c10ref c10svd = .ok c10M := by
    rw [superposition_eq_ok c10mov c10ref c10svd rfl, if_neg hdet]
    rfl
  unfold alignOnto
  rw [hs]

theorem C10_witness :
    alignOnto c10mov c10ref c10svd =
      .ok (applyTransform c10M c10mov, c10M) ∧
    ((superpositionFull c10mov c10ref c10svd).1 = c10mov ∧
      (superpositionFull c10mov c10ref c10svd).2.1 = c10ref ∧
      superposition c10mov c10ref c10svd = .ok c10M ∧
      applyTransform c10M c10mov = applyTransform c10M c10mov) :=
  ⟨c10_alignOnto,
    C10_superposition_pure_alignOnto_applies c10mov c10ref c10svd
      (applyTransform c10M c10mov) c10M c10_alignOnto⟩

/-! ## C2: the reflection correction yields a proper rotation -/

/-- The determinant of an orthogonal factor squares to 1. -/
theorem det_sq_one_of_orth {U : M3} (h : U.transpose * U = 1) :
    U.det * U.det = 1 := by
  have h1 : (U.transpose * U).det = (1 : M3).det := by rw [h]
  rwa [Matrix.det_mul, Matrix.det_transpose, Matrix.det_one] at h1

/-- Negating the third column negates the determinant. -/
theorem det_negThirdCol (U : M3) : (negThirdCol U).det = -U.det := by
  have hc : (fun i => -(U i 2)) = (-1 : ℚ) • fun i => U i 2 := by
    funext i; simp
  rw [negThirdCol, hc, Matrix.det_updateColumn_smul,
    Matrix.updateColumn_eq_self]
  ring

/-- C2: whenever the cofactor determinant of the cross-covariance matrix
is negative and the SVD satisfies the `dgesvd_` contract, `superposition`
negates the third column of `U` before forming the rotation, and the
rotation block of the returned transform has determinant `+1`. -/
theorem C2_reflection_correction_gives_proper_rotation
    (mov ref : AtomicGroup) (svd : M3 → SVD3)
    (hval : (svd (supCrossCov mov ref)).valid (supCrossCov mov ref))
    (h0 : (svd (supCrossCov mov ref)).info = 0)
    (hdet : det3 (supCrossCov mov ref) < 0) :
    ∃ W, superposition mov ref svd = .ok W ∧
      rotBlock W = ((negThirdCol (svd (supCrossCov mov ref)).U *
        (svd (supCrossCov mov ref)).Vt).transpose) ∧
      (rotBlock W).det = 1 := by
  obtain ⟨hfact, hU, hV, hS⟩ := hval
  set R := supCrossCov mov ref with hR
  set sv := svd R with hsv
  refine ⟨T4 (centroid ref) *
    rot4 ((negThirdCol sv.U * sv.Vt).transpose) * T4 (-(centroid mov)),
    ?_, ?_, ?_⟩
  · rw [superposition_eq_ok mov ref svd h0, if_pos hdet]
  · exact rotBlock_compose _ _ _
  · rw [rotBlock_compose]
    have hdR : R.det < 0 := by rwa [← det3_eq_det]
    have hDfact : R.det = sv.U.det * (Matrix.diagonal sv.S).det * sv.Vt.det := by
      rw [hfact, Matrix.det_mul, Matrix.det_mul]
    have hDnn : 0 ≤ (Matrix.diagonal sv.S).det := by
      rw [Matrix.det_diagonal, Fin.prod_univ_three]
      exact mul_nonneg (mul_nonneg (hS 0) (hS 1)) (hS 2)
    have hU1 : sv.U.det * sv.U.det = 1 := det_sq_one_of_orth hU
    have hV1 : sv.Vt.det * sv.Vt.det = 1 := by
      have h1 : (sv.Vt * sv.Vt.transpose).det = (1 : M3).det := by rw [hV]
      rwa [Matrix.det_mul, Matrix.det_transpose, Matrix.det_one] at h1
    have hprodneg : sv.U.det * sv.Vt.det < 0 := by
      rcases lt_or_eq_of_le hDnn with hpos | hzero
      · nlinarith [hdR, hDfact]
      · exfalso
        rw [hDfact, ← hzero] at hdR
        simp at hdR
    have hprodone : sv.U.det * sv.Vt.det = -1 := by
      rcases mul_self_eq_one_iff.mp
        (show (sv.U.det * sv.Vt.det) * (sv.U.det * sv.Vt.det) = 1 by
          nlinarith [hU1, hV1]) with h | h
      · exact absurd (h ▸ hprodneg) (by norm_num)
      · exact h
    rw [Matrix.det_transpose, Matrix.det_mul, det_negThirdCol]
    nlinarith [hprodone]

/-! ## Witness input for C2: a mirror-image reference -/

def c2mov : AtomicGroup :=
  [⟨⟨1, 0, 0⟩, 1⟩, ⟨⟨-1, 0, 0⟩, 1⟩, ⟨⟨0, 1, 0⟩, 1⟩,
   ⟨⟨0, -1, 0⟩, 1⟩, ⟨⟨0, 0, 1⟩, 1⟩, ⟨⟨0, 0, -1⟩, 1⟩]

/-- `c2mov` mirrored through the xy-plane. -/
def c2ref : AtomicGroup :=
  [⟨⟨1, 0, 0⟩, 1⟩, ⟨⟨-1, 0, 0⟩, 1⟩, ⟨⟨0, 1, 0⟩, 1⟩,
   ⟨⟨0, -1, 0⟩, 1⟩, ⟨⟨0, 0, -1⟩, 1⟩, ⟨⟨0, 0, 1⟩, 1⟩]

/-- A valid SVD of the resulting cross-covariance `diag(2, 2, -2)`:
`U = diag(1, 1, -1)`, `S = (2, 2, 2)`, `Vᵗ = 1`. -/
def c2svd : M3 → SVD3 := fun _ => ⟨!![1, 0, 0; 0, 1, 0; 0, 0, -1], ![2, 2, 2], 1, 0⟩

theorem c2mov_centroid : centroid c2mov = 0 := by
  norm_num [centroid, c2mov, coordSum, GCoord.add, GCoord.sdiv]
  rfl

theorem c2ref_centroid : centroid c2ref = 0 := by
  norm_num [centroid, c2ref, coordSum, GCoord.add, GCoord.sdiv]
  rfl

theorem c2_crossCov :
    supCrossCov c2mov c2ref = !![2, 0, 0; 0, 2, 0; 0, 0, -2] := by
  unfold supCrossCov
  rw [centeredArray_of_centroid_zero c2mov c2mov_centroid,
    centeredArray_of_centroid_zero c2ref c2ref_centroid]
  ext i j
  fin_cases i <;> fin_cases j <;>
    norm_num [crossCov, c2mov, c2ref, outer, Matrix.add_apply,
      Matrix.zero_apply, Matrix.vecHead, Matrix.vecTail]

theorem diag222 : (Matrix.diagonal ![(2 : ℚ), 2, 2] : M3) =
    !![2, 0, 0; 0, 2, 0; 0, 0, 2] := by
  ext i j
  fin_cases i <;> fin_cases j <;>
    norm_num [Matrix.diagonal_apply, Fin.ext_iff, Matrix.vecHead,
      Matrix.vecTail]

theorem c2_valid :
    (c2svd (supCrossCov c2mov c2ref)).valid (supCrossCov c2mov c2ref) := by
  refine ⟨?_, ?_, ?_, ?_⟩
  · rw [c2_crossCov]
    show _ = !![(1 : ℚ), 0, 0; 0, 1, 0; 0, 0, -1] *
      Matrix.diagonal ![(2 : ℚ), 2, 2] * 1
    rw [Matrix.mul_one, diag222, Matrix.mul_fin_three]
    ext i j
    fin_cases i <;> fin_cases j <;>
      norm_num [Matrix.vecHead, Matrix.vecTail]
  · show (!![(1 : ℚ), 0, 0; 0, 1, 0; 0, 0, -1] : M3).transpose *
      !![(1 : ℚ), 0, 0; 0, 1, 0; 0, 0, -1] = 1
    ext i j
    fin_cases i <;> fin_cases j <;>
      norm_num [Matrix.mul_apply, Fin.sum_univ_three,
        Matrix.transpose_apply, Matrix.one_apply, Fin.ext_iff,
        Matrix.vecHead, Matrix.vecTail]
  · show ((1 : M3) * (1 : M3).transpose) = 1
    rw [Matrix.transpose_one, Matrix.mul_one]
  · intro i
    fin_cases i <;> norm_num [c2svd, Matrix.vecHead, Matrix.vecTail]

theorem c2_det_neg : det3 (supCrossCov c2mov c2ref) < 0 := by
  rw [c2_crossCov]
  norm_num [det3, Matrix.vecHead, Matrix.vecTail]

theorem C2_witness :
    (c2svd (supCrossCov c2mov c2ref)).valid (supCrossCov c2mov c2ref) ∧
    (c2svd (supCrossCov c2mov c2ref)).info = 0 ∧
    det3 (supCrossCov c2mov c2ref) < 0 ∧
    ∃ W, superposition c2mov c2ref c2svd = .ok W ∧
      rotBlock W = ((negThirdCol (c2svd (supCrossCov c2mov c2ref)).U *
        (c2svd (supCrossCov c2mov c2ref)).Vt).transpose) ∧
      (rotBlock W).det = 1 :=
  ⟨c2_valid, rfl, c2_det_neg,
    C2_reflection_correction_gives_proper_rotation c2mov c2ref c2svd
      c2_valid rfl c2_det_neg⟩

/-! ## C4: output layout of `momentsOfInertia` / `principalAxes` -/

/-- C4: on success, each routine returns exactly 4 entries: the first 3
are eigenvectors of the decomposed matrix ordered by descending
eigenvalue (entry `j` carries eigenvalue `W(2-j)` with
`W 2 ≥ W 1 ≥ W 0`), and the 4th packs the three eigenvalues, largest
first, divided by the number of points. -/
theorem C4_output_ordering (g : AtomicGroup) (dsyev : M3 → EigResult)
    (hmo : (dsyev (inertiaTensor g)).valid (inertiaTensor g))
    (hpa : (dsyev (scatterMatrix g)).valid (scatterMatrix g)) :
    (∃ v0 v1 v2 ev, momentsOfInertia g dsyev = .ok [v0, v1, v2, ev] ∧
      (inertiaTensor g).mulVec v0.toVec =
        (dsyev (inertiaTensor g)).W 2 • v0.toVec ∧
      (inertiaTensor g).mulVec v1.toVec =
        (dsyev (inertiaTensor g)).W 1 • v1.toVec ∧
      (inertiaTensor g).mulVec v2.toVec =
        (dsyev (inertiaTensor g)).W 0 • v2.toVec ∧
      (dsyev (inertiaTensor g)).W 1 ≤ (dsyev (inertiaTensor g)).W 2 ∧
      (dsyev (inertiaTensor g)).W 0 ≤ (dsyev (inertiaTensor g)).W 1 ∧
      ev = (GCoord.mk ((dsyev (inertiaTensor g)).W 2)
        ((dsyev (inertiaTensor g)).W 1) ((dsyev (inertiaTensor g)).W 0)).sdiv
        (g.length : ℚ)) ∧
    (∃ v0 v1 v2 ev, principalAxes g dsyev = .ok [v0, v1, v2, ev] ∧
      (scatterMatrix g).mulVec v0.toVec =
        (dsyev (scatterMatrix g)).W 2 • v0.toVec ∧
      (scatterMatrix g).mulVec v1.toVec =
        (dsyev (scatterMatrix g)).W 1 • v1.toVec ∧
      (scatterMatrix g).mulVec v2.toVec =
        (dsyev (scatterMatrix g)).W 0 • v2.toVec ∧
      (dsyev (scatterMatrix g)).W 1 ≤ (dsyev (scatterMatrix g)).W 2 ∧
      (dsyev (scatterMatrix g)).W 0 ≤ (dsyev (scatterMatrix g)).W 1 ∧
      ev = (GCoord.mk ((dsyev (scatterMatrix g)).W 2)
        ((dsyev (scatterMatrix g)).W 1) ((dsyev (scatterMatrix g)).W 0)).sdiv
        (g.length : ℚ)) := by
  obtain ⟨h0m, heigm, h01m, h12m⟩ := hmo
  obtain ⟨h0p, heigp, h01p, h12p⟩ := hpa
  constructor
  · refine ⟨colCoord (dsyev (inertiaTensor g)).Z 2,
      colCoord (dsyev (inertiaTensor g)).Z 1,
      colCoord (dsyev (inertiaTensor g)).Z 0, _, ?_,
      heigm 2, heigm 1, heigm 0, h12m, h01m, rfl⟩
    unfold momentsOfInertia
    rw [if_neg (by simp [h0m]), if_neg (by simp [h0m])]
  · refine ⟨colCoord (dsyev (scatterMatrix g)).Z 2,
      colCoord (dsyev (scatterMatrix g)).Z 1,
      colCoord (dsyev (scatterMatrix g)).Z 0, _, ?_,
      heigp 2, heigp 1, heigp 0, h12p, h01p, rfl⟩
    unfold principalAxes
    rw [if_neg (by simp [h0p]), if_neg (by simp [h0p])]

/-! ## Witness input for C4 -/

def c4g : AtomicGroup :=
  [⟨⟨1, 0, 0⟩, 1⟩, ⟨⟨-1, 0, 0⟩, 1⟩, ⟨⟨0, 2, 0⟩, 1⟩, ⟨⟨0, -2, 0⟩, 1⟩]

/-- A `dsyev_` oracle giving the eigendecomposition of the inertia tensor
`diag(8, 2, 10)` of `c4g` (distinguished by its `(2,2)` entry `10`) and
of its scatter matrix `diag(2, 8, 0)`, eigenvalues ascending. -/
def c4eig : M3 → EigResult := fun A =>
  if A 2 2 = 10 then ⟨!![0, 1, 0; 1, 0, 0; 0, 0, 1], ![2, 8, 10], 0⟩
  else ⟨!![0, 1, 0; 0, 0, 1; 1, 0, 0], ![0, 2, 8], 0⟩

theorem c4_inertia : inertiaTensor c4g = !![8, 0, 0; 0, 2, 0; 0, 0, 10] := by
  ext i j
  fin_cases i <;> fin_cases j <;>
    norm_num [inertiaTensor, inertiaSum, centerOfMass, coordSum, c4g,
      GCoord.add, GCoord.smul, GCoord.sdiv, Matrix.vecHead, Matrix.vecTail]

theorem c4_scatter : scatterMatrix c4g = !![2, 0, 0; 0, 8, 0; 0, 0, 0] := by
  unfold scatterMatrix
  have hc : centroid c4g = 0 := by
    norm_num [centroid, c4g, coordSum, GCoord.add, GCoord.sdiv]
    rfl
  rw [hc]
  ext i j
  fin_cases i <;> fin_cases j <;>
    norm_num [crossCov, c4g, outer, Matrix.add_apply, Matrix.zero_apply,
      Matrix.vecHead, Matrix.vecTail]

theorem c4eig_inertia :
    c4eig (inertiaTensor c4g) =
      ⟨!![0, 1, 0; 1, 0, 0; 0, 0, 1], ![2, 8, 10], 0⟩ := by
  rw [c4_inertia]
  norm_num [c4eig, Matrix.vecHead, Matrix.vecTail]

theorem c4eig_scatter :
    c4eig (scatterMatrix c4g) =
      ⟨!![0, 1, 0; 0, 0, 1; 1, 0, 0], ![0, 2, 8], 0⟩ := by
  rw [c4_scatter]
  norm_num [c4eig, Matrix.vecHead, Matrix.vecTail]

theorem c4_valid_inertia :
    (c4eig (inertiaTensor c4g)).valid (inertiaTensor c4g) := by
  rw [c4eig_inertia]
  refine ⟨rfl, ?_, by norm_num, by norm_num⟩
  intro i
  rw [c4_inertia]
  funext k
  fin_cases i <;> fin_cases k <;>
    norm_num [colCoord, Matrix.mulVec, Matrix.dotProduct,
      Fin.sum_univ_three, Pi.smul_apply, Matrix.vecHead, Matrix.vecTail,
      GCoord.toVec]

theorem c4_valid_scatter :
    (c4eig (scatterMatrix c4g)).valid (scatterMatrix c4g) := by
  rw [c4eig_scatter]
  refine ⟨rfl, ?_, by norm_num, by norm_num⟩
  intro i
  rw [c4_scatter]
  funext k
  fin_cases i <;> fin_cases k <;>
    norm_num [colCoord, Matrix.mulVec, Matrix.dotProduct,
      Fin.sum_univ_three, Pi.smul_apply, Matrix.vecHead, Matrix.vecTail,
      GCoord.toVec]

theorem C4_witness :
    (c4eig (inertiaTensor c4g)).valid (inertiaTensor c4g) ∧
    (c4eig (scatterMatrix c4g)).valid (scatterMatrix c4g) ∧
    ((∃ v0 v1 v2 ev, momentsOfInertia c4g c4eig = .ok [v0, v1, v2, ev] ∧
      (inertiaTensor c4g).mulVec v0.toVec =
        (c4eig (inertiaTensor c4g)).W 2 • v0.toVec ∧
      (inertiaTensor c4g).mulVec v1.toVec =
        (c4eig (inertiaTensor c4g)).W 1 • v1.toVec ∧
      (inertiaTensor c4g).mulVec v2.toVec =
        (c4eig (inertiaTensor c4g)).W 0 • v2.toVec ∧
      (c4eig (inertiaTensor c4g)).W 1 ≤ (c4eig (inertiaTensor c4g)).W 2 ∧
      (c4eig (inertiaTensor c4g)).W 0 ≤ (c4eig (inertiaTensor c4g)).W 1 ∧
      ev = (GCoord.mk ((c4eig (inertiaTensor c4g)).W 2)
        ((c4eig (inertiaTensor c4g)).W 1)
        ((c4eig (inertiaTensor c4g)).W 0)).sdiv (c4g.length : ℚ)) ∧
    (∃ v0 v1 v2 ev, principalAxes c4g c4eig = .ok [v0, v1, v2, ev] ∧
      (scatterMatrix c4g).mulVec v0.toVec =
        (c4eig (scatterMatrix c4g)).W 2 • v0.toVec ∧
      (scatterMatrix c4g).mulVec v1.toVec =
        (c4eig (scatterMatrix c4g)).W 1 • v1.toVec ∧
      (scatterMatrix c4g).mulVec v2.toVec =
        (c4eig (scatterMatrix c4g)).W 0 • v2.toVec ∧
      (c4eig (scatterMatrix c4g)).W 1 ≤ (c4eig (scatterMatrix c4g)).W 2 ∧
      (c4eig (scatterMatrix c4g)).W 0 ≤ (c4eig (scatterMatrix c4g)).W 1 ∧
      ev = (GCoord.mk ((c4eig (scatterMatrix c4g)).W 2)
        ((c4eig (scatterMatrix c4g)).W 1)
        ((c4eig (scatterMatrix c4g)).W 0)).sdiv (c4g.length : ℚ))) :=
  ⟨c4_valid_inertia, c4_valid_scatter,
    C4_output_ordering c4g c4eig c4_valid_inertia c4_valid_scatter⟩

/-! ## Symmetry and positive semidefiniteness of `X·Xᵗ` -/

theorem outer_self_symm (p : GCoord) : (outer p p).transpose = outer p p := by
  ext i j
  simp [outer, Matrix.transpose_apply, mul_comm]

theorem crossCov_self_symm (l : List GCoord) :
    (crossCov l l).transpose = crossCov l l := by
  induction l with
  | nil => simp [crossCov]
  | cons x xs ih =>
    show (outer x x + crossCov xs xs).transpose = outer x x + crossCov xs xs
    rw [Matrix.transpose_add, outer_self_symm, ih]

theorem dot_outer_self (p : GCoord) (v : Fin 3 → ℚ) :
    v ⬝ᵥ (outer p p).mulVec v = (p.toVec ⬝ᵥ v) * (p.toVec ⬝ᵥ v) := by
  simp [outer, Matrix.mulVec, Matrix.dotProduct, Fin.sum_univ_three]
  ring

theorem crossCov_self_psd (l : List GCoord) (v : Fin 3 → ℚ) :
    0 ≤ v ⬝ᵥ (crossCov l l).mulVec v := by
  induction l with
  | nil =>
    show 0 ≤ v ⬝ᵥ (0 : M3).mulVec v
    simp [Matrix.zero_mulVec]
  | cons x xs ih =>
    show 0 ≤ v ⬝ᵥ (outer x x + crossCov xs xs).mulVec v
    rw [Matrix.add_mulVec, Matrix.dotProduct_add, dot_outer_self]
    exact add_nonneg (mul_self_nonneg _) ih

/-! ## Uniqueness of the rotation for a symmetric PSD cross-covariance -/

/-- For a symmetric positive-semidefinite `R` whose SVD has strictly
decreasing, strictly positive singular values, the SVD factors satisfy
`Vᵗ = Uᵗ`, hence the code's rotation `U·Vᵗ` is the identity and the
cofactor determinant of `R` is positive. -/
theorem svd_symm_psd_unique (R : M3) (sv : SVD3) (hval : sv.valid R)
    (hsym : R.transpose = R) (hpsd : ∀ v, 0 ≤ v ⬝ᵥ R.mulVec v)
    (hs21 : sv.S 2 < sv.S 1) (hs10 : sv.S 1 < sv.S 0) (hs2 : 0 < sv.S 2) :
    sv.U * sv.Vt = 1 ∧ 0 < det3 R := by
  obtain ⟨hfact, hU, hV, hS⟩ := hval
  have hp1 : 0 < sv.S 1 := lt_trans hs2 hs21
  have hp0 : 0 < sv.S 0 := lt_trans hp1 hs10
  have hSpos : ∀ i : Fin 3, 0 < sv.S i := by
    intro i
    fin_cases i
    · exact hp0
    · exact hp1
    · exact hs2
  have hUU : sv.U * sv.U.transpose = 1 := Matrix.mul_eq_one_comm.mp hU
  have hVV : sv.Vt.transpose * sv.Vt = 1 := Matrix.mul_eq_one_comm.mp hV
  have hDt : (Matrix.diagonal sv.S).transpose = Matrix.diagonal sv.S :=
    Matrix.diagonal_transpose _
  have hRt : R.transpose =
      sv.Vt.transpose * Matrix.diagonal sv.S * sv.U.transpose := by
    rw [hfact, Matrix.transpose_mul, Matrix.transpose_mul, hDt,
      Matrix.mul_assoc]
  have hRRt : R * R.transpose = sv.U *
      (Matrix.diagonal sv.S * Matrix.diagonal sv.S) * sv.U.transpose := by
    calc R * R.transpose
        = sv.U * Matrix.diagonal sv.S * (sv.Vt * sv.Vt.transpose) *
          Matrix.diagonal sv.S * sv.U.transpose := by
          rw [hRt, hfact]; noncomm_ring
      _ = sv.U * (Matrix.diagonal sv.S * Matrix.diagonal sv.S) *
          sv.U.transpose := by rw [hV, Matrix.mul_one]; noncomm_ring
  have hRtR : R.transpose * R = sv.Vt.transpose *
      (Matrix.diagonal sv.S * Matrix.diagonal sv.S) * sv.Vt := by
    calc R.transpose * R
        = sv.Vt.transpose * Matrix.diagonal sv.S *
          (sv.U.transpose * sv.U) * Matrix.diagonal sv.S * sv.Vt := by
          rw [hRt, hfact]; noncomm_ring
      _ = sv.Vt.transpose *
          (Matrix.diagonal sv.S * Matrix.diagonal sv.S) * sv.Vt := by
          rw [hU, Matrix.mul_one]; noncomm_ring
  have hEq : sv.U * (Matrix.diagonal sv.S * Matrix.diagonal sv.S) *
      sv.U.transpose = sv.Vt.transpose *
      (Matrix.diagonal sv.S * Matrix.diagonal sv.S) * sv.Vt := by
    rw [← hRRt, ← hRtR, hsym]
  have hcomm : (Matrix.diagonal sv.S * Matrix.diagonal sv.S) *
      (sv.U.transpose * sv.Vt.transpose) =
      (sv.U.transpose * sv.Vt.transpose) *
      (Matrix.diagonal sv.S * Matrix.diagonal sv.S) := by
    calc (Matrix.diagonal sv.S * Matrix.diagonal sv.S) *
        (sv.U.transpose * sv.Vt.transpose)
        = (sv.U.transpose * sv.U) *
          (Matrix.diagonal sv.S * Matrix.diagonal sv.S) *
          (sv.U.transpose * sv.Vt.transpose) := by rw [hU, Matrix.one_mul]
      _ = sv.U.transpose *
          (sv.U * (Matrix.diagonal sv.S * Matrix.diagonal sv.S) *
            sv.U.transpose) * sv.Vt.transpose := by noncomm_ring
      _ = sv.U.transpose *
          (sv.Vt.transpose *
            (Matrix.diagonal sv.S * Matrix.diagonal sv.S) * sv.Vt) *
          sv.Vt.transpose := by rw [hEq]
      _ = (sv.U.transpose * sv.Vt.transpose) *
          (Matrix.diagonal sv.S * Matrix.diagonal sv.S) *
          (sv.Vt * sv.Vt.transpose) := by noncomm_ring
      _ = (sv.U.transpose * sv.Vt.transpose) *
          (Matrix.diagonal sv.S * Matrix.diagonal sv.S) := by
          rw [hV, Matrix.mul_one]
  have q21 : sv.S 2 * sv.S 2 < sv.S 1 * sv.S 1 := by nlinarith
  have q10 : sv.S 1 * sv.S 1 < sv.S 0 * sv.S 0 := by nlinarith
  have q20 : sv.S 2 * sv.S 2 < sv.S 0 * sv.S 0 := by nlinarith
  have hSsq : ∀ i j : Fin 3, i ≠ j → sv.S i * sv.S i ≠ sv.S j * sv.S j := by
    intro i j hij
    fin_cases i <;> fin_cases j <;>
      first
        | exact absurd rfl hij
        | exact ne_of_gt q21
        | exact ne_of_lt q21
        | exact ne_of_gt q10
        | exact ne_of_lt q10
        | exact ne_of_gt q20
        | exact ne_of_lt q20
  have hQoff : ∀ i j : Fin 3, i ≠ j →
      (sv.U.transpose * sv.Vt.transpose) i j = 0 := by
    intro i j hij
    have h := congrFun (congrFun hcomm i) j
    rw [Matrix.diagonal_mul_diagonal, Matrix.diagonal_mul,
      Matrix.mul_diagonal] at h
    have h2 : (sv.S i * sv.S i - sv.S j * sv.S j) *
        (sv.U.transpose * sv.Vt.transpose) i j = 0 := by
      linear_combination h
    rcases mul_eq_zero.mp h2 with h3 | h3
    · exact absurd (sub_eq_zero.mp h3) (hSsq i j hij)
    · exact h3
  have hQorth : (sv.U.transpose * sv.Vt.transpose).transpose *
      (sv.U.transpose * sv.Vt.transpose) = 1 := by
    calc (sv.U.transpose * sv.Vt.transpose).transpose *
        (sv.U.transpose * sv.Vt.transpose)
        = sv.Vt * (sv.U * sv.U.transpose) * sv.Vt.transpose := by
          rw [Matrix.transpose_mul, Matrix.transpose_transpose,
            Matrix.transpose_transpose]; noncomm_ring
      _ = sv.Vt * sv.Vt.transpose := by rw [hUU, Matrix.mul_one]
      _ = 1 := hV
  have hd0 : (sv.U.transpose * sv.Vt.transpose) 0 0 *
      (sv.U.transpose * sv.Vt.transpose) 0 0 = 1 := by
    have h := congrFun (congrFun hQorth 0) 0
    rw [Matrix.mul_apply, Fin.sum_univ_three] at h
    simp only [Matrix.transpose_apply, Matrix.one_apply_eq] at h
    rw [hQoff 1 0 (by decide), hQoff 2 0 (by decide)] at h
    simpa using h
  have hd1 : (sv.U.transpose * sv.Vt.transpose) 1 1 *
      (sv.U.transpose * sv.Vt.transpose) 1 1 = 1 := by
    have h := congrFun (congrFun hQorth 1) 1
    rw [Matrix.mul_apply, Fin.sum_univ_three] at h
    simp only [Matrix.transpose_apply, Matrix.one_apply_eq] at h
    rw [hQoff 0 1 (by decide), hQoff 2 1 (by decide)] at h
    simpa using h
  have hd2 : (sv.U.transpose * sv.Vt.transpose) 2 2 *
      (sv.U.transpose * sv.Vt.transpose) 2 2 = 1 := by
    have h := congrFun (congrFun hQorth 2) 2
    rw [Matrix.mul_apply, Fin.sum_univ_three] at h
    simp only [Matrix.transpose_apply, Matrix.one_apply_eq] at h
    rw [hQoff 0 2 (by decide), hQoff 1 2 (by decide)] at h
    simpa using h
  have hQdiag_sq : ∀ i : Fin 3,
      (sv.U.transpose * sv.Vt.transpose) i i *
      (sv.U.transpose * sv.Vt.transpose) i i = 1 := by
    intro i
    fin_cases i
    · exact hd0
    · exact hd1
    · exact hd2
  have hkey : ∀ i : Fin 3,
      0 ≤ sv.S i * ((sv.U.transpose * sv.Vt.transpose) i i) := by
    intro i
    have hp := hpsd (sv.U.mulVec (Pi.single i 1))
    have hRU : R * sv.U = sv.U *
        (Matrix.diagonal sv.S * (sv.Vt * sv.U)) := by
      calc R * sv.U = sv.U * Matrix.diagonal sv.S * sv.Vt * sv.U := by
            rw [hfact]
        _ = sv.U * (Matrix.diagonal sv.S * (sv.Vt * sv.U)) := by
            noncomm_ring
    rw [show R.mulVec (sv.U.mulVec (Pi.single i 1)) =
        (R * sv.U).mulVec (Pi.single i 1) from
        Matrix.mulVec_mulVec _ _ _, hRU,
      ← Matrix.mulVec_mulVec] at hp
    rw [Matrix.dotProduct_mulVec] at hp
    have hvm : sv.U.mulVec (Pi.single i 1) ᵥ* sv.U = Pi.single i 1 := by
      rw [show sv.U.mulVec (Pi.single i 1) =
          (Pi.single i 1 : Fin 3 → ℚ) ᵥ* sv.U.transpose from
          (Matrix.vecMul_transpose _ _).symm,
        Matrix.vecMul_vecMul, hU, Matrix.vecMul_one]
    rw [hvm, Matrix.single_dotProduct, one_mul] at hp
    have hentry : (Matrix.diagonal sv.S * (sv.Vt * sv.U)).mulVec
        (Pi.single i 1) i = sv.S i *
        ((sv.U.transpose * sv.Vt.transpose) i i) := by
      rw [Matrix.mulVec_single]
      simp only [mul_one]
      rw [Matrix.diagonal_mul]
      congr 1
      rw [show sv.U.transpose * sv.Vt.transpose =
        (sv.Vt * sv.U).transpose from (Matrix.transpose_mul _ _).symm,
        Matrix.transpose_apply]
    rwa [hentry] at hp
  have hQdiag : ∀ i : Fin 3,
      (sv.U.transpose * sv.Vt.transpose) i i = 1 := by
    intro i
    rcases mul_self_eq_one_iff.mp (hQdiag_sq i) with h | h
    · exact h
    · exfalso
      have h0 := hkey i
      rw [h] at h0
      have := hSpos i
      nlinarith
  have hQ1 : sv.U.transpose * sv.Vt.transpose = 1 := by
    ext i j
    by_cases hij : i = j
    · subst hij; rw [hQdiag, Matrix.one_apply_eq]
    · rw [hQoff i j hij, Matrix.one_apply_ne hij]
  have hVtU : sv.Vt.transpose = sv.U := by
    calc sv.Vt.transpose = (sv.U * sv.U.transpose) * sv.Vt.transpose := by
          rw [hUU, Matrix.one_mul]
      _ = sv.U * (sv.U.transpose * sv.Vt.transpose) := by
          rw [Matrix.mul_assoc]
      _ = sv.U := by rw [hQ1, Matrix.mul_one]
  have hVt : sv.Vt = sv.U.transpose := by
    rw [← Matrix.transpose_transpose sv.Vt, hVtU]
  constructor
  · rw [hVt, hUU]
  · rw [det3_eq_det, hfact, hVt, Matrix.det_mul, Matrix.det_mul]
    have hdU : sv.U.det * sv.U.transpose.det = 1 := by
      rw [← Matrix.det_mul, hUU, Matrix.det_one]
    have hdD : 0 < (Matrix.diagonal sv.S).det := by
      rw [Matrix.det_diagonal, Fin.prod_univ_three]
      exact mul_pos (mul_pos (hSpos 0) (hSpos 1)) (hSpos 2)
    nlinarith

/-! ## Identity-transform lemmas -/

theorem applyXform_one (p : GCoord) : applyXform (1 : M4) p = p := by
  simp [applyXform, Matrix.one_apply]

theorem applyTransform_one (g : AtomicGroup) :
    applyTransform (1 : M4) g = g := by
  induction g with
  | nil => rfl
  | cons a t ih =>
    show ({ a with coords := applyXform 1 a.coords } :: applyTransform 1 t) =
      a :: t
    rw [applyXform_one, ih]

theorem sqDist_self (p : GCoord) : sqDist p p = 0 := by simp [sqDist]

theorem msd_self (g : AtomicGroup) : msd g g = 0 := by
  unfold msd
  have h : ((g.zip g).map fun ab => sqDist ab.1.coords ab.2.coords).sum = 0 := by
    induction g with
    | nil => rfl
    | cons a t ih => simp [List.zip_cons_cons, sqDist_self, ih]
  rw [h, zero_div]

theorem rmsd_self (g : AtomicGroup) : rmsd g g = 0 := by
  unfold rmsd
  rw [msd_self]
  simp

/-- Core of C3/C7: aligning a group onto itself with a contract-satisfying
SVD (distinct positive singular values) applies the identity and returns
the identity transform. -/
theorem alignOnto_self_eq (A : AtomicGroup) (svd : M3 → SVD3)
    (hval : (svd (supCrossCov A A)).valid (supCrossCov A A))
    (h0 : (svd (supCrossCov A A)).info = 0)
    (hs21 : (svd (supCrossCov A A)).S 2 < (svd (supCrossCov A A)).S 1)
    (hs10 : (svd (supCrossCov A A)).S 1 < (svd (supCrossCov A A)).S 0)
    (hs2 : 0 < (svd (supCrossCov A A)).S 2) :
    alignOnto A A svd = .ok (A, (1 : M4)) := by
  have hsym : (supCrossCov A A).transpose = supCrossCov A A :=
    crossCov_self_symm _
  have hpsd : ∀ v, 0 ≤ v ⬝ᵥ (supCrossCov A A).mulVec v := fun v =>
    crossCov_self_psd _ v
  obtain ⟨hUVt, hdetpos⟩ :=
    svd_symm_psd_unique _ _ hval hsym hpsd hs21 hs10 hs2
  have hsp : superposition A A svd = .ok (1 : M4) := by
    rw [superposition_eq_ok A A svd h0,
      if_neg (not_lt.mpr (le_of_lt hdetpos)), hUVt, Matrix.transpose_one,
      rot4_one, Matrix.mul_one, T4_mul_T4, add_neg_cancel', T4_zero]
  unfold alignOnto
  rw [hsp]
  show Except.ok (applyTransform 1 A, (1 : M4)) = Except.ok (A, (1 : M4))
  rw [applyTransform_one]

end Loos

namespace Loos

/-! ## C3: aligning a point set onto itself -/

/-- C3: `alignOnto(A, A)` yields the identity transform (applied to the
group, leaving it unchanged) and the RMSD of the group with itself after
the call is 0, whenever the SVD oracle satisfies the `dgesvd_` contract
with distinct positive singular values (exact rational arithmetic stands
in for "up to floating-point tolerance"). -/
theorem C3_alignOnto_self_identity (A : AtomicGroup) (svd : M3 → SVD3)
    (hval : (svd (supCrossCov A A)).valid (supCrossCov A A))
    (h0 : (svd (supCrossCov A A)).info = 0)
    (hs21 : (svd (supCrossCov A A)).S 2 < (svd (supCrossCov A A)).S 1)
    (hs10 : (svd (supCrossCov A A)).S 1 < (svd (supCrossCov A A)).S 0)
    (hs2 : 0 < (svd (supCrossCov A A)).S 2) :
    alignOnto A A svd = .ok (A, (1 : M4)) ∧ rmsd A A = 0 :=
  ⟨alignOnto_self_eq A svd hval h0 hs21 hs10 hs2, rmsd_self A⟩

/-! ## Witness input for C3 -/

def c3A : AtomicGroup :=
  [⟨⟨1, 0, 0⟩, 1⟩, ⟨⟨-1, 0, 0⟩, 1⟩, ⟨⟨0, 2, 0⟩, 1⟩,
   ⟨⟨0, -2, 0⟩, 1⟩, ⟨⟨0, 0, 3⟩, 1⟩, ⟨⟨0, 0, -3⟩, 1⟩]

/-- The index-reversing permutation matrix. -/
def permP : M3 := !![0, 0, 1; 0, 1, 0; 1, 0, 0]

/-- A valid SVD of the cross-covariance `diag(2, 8, 18)` of `c3A` with
itself: `U = Vᵗ = permP`, singular values `(18, 8, 2)` descending. -/
def c3svd : M3 → SVD3 := fun _ => ⟨permP, ![18, 8, 2], permP, 0⟩

theorem c3A_centroid : centroid c3A = 0 := by
  norm_num [centroid, c3A, coordSum, GCoord.add, GCoord.sdiv]
  rfl

theorem c3_crossCov :
    supCrossCov c3A c3A = !![2, 0, 0; 0, 8, 0; 0, 0, 18] := by
  unfold supCrossCov
  rw [centeredArray_of_centroid_zero c3A c3A_centroid]
  ext i j
  fin_cases i <;> fin_cases j <;>
    norm_num [crossCov, c3A, outer, Matrix.add_apply, Matrix.zero_apply,
      Matrix.vecHead, Matrix.vecTail]

theorem diag1882 : (Matrix.diagonal ![(18 : ℚ), 8, 2] : M3) =
    !![18, 0, 0; 0, 8, 0; 0, 0, 2] := by
  ext i j
  fin_cases i <;> fin_cases j <;>
    norm_num [Matrix.diagonal_apply, Fin.ext_iff, Matrix.vecHead,
      Matrix.vecTail]

theorem c3_valid :
    (c3svd (supCrossCov c3A c3A)).valid (supCrossCov c3A c3A) := by
  refine ⟨?_, ?_, ?_, ?_⟩
  · rw [c3_crossCov]
    show _ = permP * Matrix.diagonal ![(18 : ℚ), 8, 2] * permP
    rw [diag1882, permP, Matrix.mul_fin_three, Matrix.mul_fin_three]
    ext i j
    fin_cases i <;> fin_cases j <;>
      norm_num [Matrix.vecHead, Matrix.vecTail]
  · show permP.transpose * permP = 1
    ext i j
    fin_cases i <;> fin_cases j <;>
      norm_num [permP, Matrix.mul_apply, Fin.sum_univ_three,
        Matrix.transpose_apply, Matrix.one_apply, Fin.ext_iff,
        Matrix.vecHead, Matrix.vecTail]
  · show permP * permP.transpose = 1
    ext i j
    fin_cases i <;> fin_cases j <;>
      norm_num [permP, Matrix.mul_apply, Fin.sum_univ_three,
        Matrix.transpose_apply, Matrix.one_apply, Fin.ext_iff,
        Matrix.vecHead, Matrix.vecTail]
  · intro i
    fin_cases i <;> norm_num [c3svd, Matrix.vecHead, Matrix.vecTail]

theorem C3_witness :
    (c3svd (supCrossCov c3A c3A)).valid (supCrossCov c3A c3A) ∧
    (c3svd (supCrossCov c3A c3A)).info = 0 ∧
    (c3svd (supCrossCov c3A c3A)).S 2 < (c3svd (supCrossCov c3A c3A)).S 1 ∧
    (c3svd (supCrossCov c3A c3A)).S 1 < (c3svd (supCrossCov c3A c3A)).S 0 ∧
    0 < (c3svd (supCrossCov c3A c3A)).S 2 ∧
    (alignOnto c3A c3A c3svd = .ok (c3A, (1 : M4)) ∧ rmsd c3A c3A = 0) :=
  ⟨c3_valid, rfl, by norm_num [c3svd], by norm_num [c3svd],
    by norm_num [c3svd],
    C3_alignOnto_self_identity c3A c3svd c3_valid rfl
      (by norm_num [c3svd]) (by norm_num [c3svd]) (by norm_num [c3svd])⟩

/-! ## C7: iterative alignment of an ensemble of identical copies -/

theorem zipWith_map_self {α β : Type} (f : α → β → α) (g : α → β)
    (l : List α) :
    List.zipWith f l (l.map g) = l.map fun a => f a (g a) := by
  induction l with
  | nil => rfl
  | cons a t ih => simp [ih]

theorem zipWith_map_both {α β γ δ : Type} (f : β → γ → δ) (g : α → β)
    (h : α → γ) (l : List α) :
    List.zipWith f (l.map g) (l.map h) = l.map fun a => f (g a) (h a) := by
  induction l with
  | nil => rfl
  | cons a t ih => simp [ih]

theorem coordSums_cons₂ (g h : AtomicGroup) (t : List AtomicGroup) :
    coordSums (g :: h :: t) =
      List.zipWith (· + ·) (g.map LAtom.coords) (coordSums (h :: t)) := rfl

theorem coordSums_replicate (A : AtomicGroup) (m : ℕ) :
    coordSums (List.replicate (m + 1) A) =
      A.map fun a => ((m : ℚ) + 1) • a.coords := by
  induction m with
  | zero =>
    rw [List.replicate_one]
    show A.map LAtom.coords = _
    congr 1
    funext a
    norm_num
  | succ n ih =>
    rw [List.replicate_succ, List.replicate_succ, coordSums_cons₂,
      ← List.replicate_succ, ih, zipWith_map_both]
    congr 1
    funext a
    push_cast
    simp only [GCoord.smul_def, GCoord.add_def]
    congr 1 <;> ring

theorem avgStructure_replicate (A : AtomicGroup) (m : ℕ) :
    avgStructure (List.replicate (m + 1) A) = A := by
  have h1 : avgStructure (List.replicate (m + 1) A) =
      List.zipWith
        (fun a c => { a with
          coords := c.sdiv ((List.replicate (m + 1) A).length : ℚ) })
        A (coordSums (List.replicate (m + 1) A)) := by
    rw [List.replicate_succ]
    rfl
  rw [h1, List.length_replicate, coordSums_replicate, zipWith_map_self]
  have hne : ((m : ℚ) + 1) ≠ 0 := by positivity
  have hx : ∀ q : ℚ, (((m : ℚ) + 1) * q) / ((m + 1 : ℕ) : ℚ) = q := by
    intro q
    push_cast
    rw [mul_comm, mul_div_assoc, div_self hne, mul_one]
  have h2 : ∀ a : LAtom,
      ({ a with coords := (((m : ℚ) + 1) • a.coords).sdiv ((m + 1 : ℕ) : ℚ) } : LAtom) = a := by
    intro a
    simp only [GCoord.smul_def, GCoord.sdiv]
    rw [hx, hx, hx]
  exact (List.map_congr_left fun a _ => h2 a).trans (List.map_id' A)

theorem headD_replicate (A : AtomicGroup) (m : ℕ) :
    (List.replicate (m + 1) A).headD [] = A := by
  rw [List.replicate_succ]
  rfl

theorem alignAll_replicate (svd : M3 → SVD3) (ref A A' : AtomicGroup)
    (M : M4) (h : alignOnto A ref svd = .ok (A', M)) (k : ℕ) :
    alignAll svd (List.replicate k A) ref =
      .ok (List.replicate k A', List.replicate k M) := by
  induction k with
  | zero => rfl
  | succ n ih =>
    rw [List.replicate_succ]
    show (match alignOnto A ref svd,
        alignAll svd (List.replicate n A) ref with
      | Except.ok (g', M), Except.ok (gs, Ms) =>
        Except.ok (g' :: gs, M :: Ms)
      | Except.error e, _ => Except.error e
      | _, Except.error e => Except.error e) = _
    rw [h, ih]
    rfl

/-- C7: on an ensemble of `k` identical copies of one structure,
`iterativeAlignment` stops after exactly 1 iteration (the defined
minimum), every returned per-frame transform is the identity, and the
returned convergence deviation is 0 (so the final RMSD, its square root,
is 0).  The SVD oracle hypotheses are those of C3. -/
theorem C7_iterativeAlignment_identical_copies (A : AtomicGroup)
    (svd : M3 → SVD3) (tolSq : ℚ) (k maxIter : ℕ)
    (hval : (svd (supCrossCov A A)).valid (supCrossCov A A))
    (h0 : (svd (supCrossCov A A)).info = 0)
    (hs21 : (svd (supCrossCov A A)).S 2 < (svd (supCrossCov A A)).S 1)
    (hs10 : (svd (supCrossCov A A)).S 1 < (svd (supCrossCov A A)).S 0)
    (hs2 : 0 < (svd (supCrossCov A A)).S 2)
    (hk : k ≠ 0) (hmax : maxIter ≠ 0) (htol : 0 < tolSq) :
    iterativeAlignment svd tolSq maxIter (List.replicate k A) =
      .ok (List.replicate k (1 : M4), 0, 1) := by
  obtain ⟨m, rfl⟩ : ∃ m, k = m + 1 :=
    ⟨k - 1, (Nat.succ_pred_eq_of_pos (Nat.pos_of_ne_zero hk)).symm⟩
  obtain ⟨n, rfl⟩ : ∃ n, maxIter = n + 1 :=
    ⟨maxIter - 1, (Nat.succ_pred_eq_of_pos (Nat.pos_of_ne_zero hmax)).symm⟩
  have halign := alignOnto_self_eq A svd hval h0 hs21 hs10 hs2
  have hall := alignAll_replicate svd A A A 1 halign (m + 1)
  unfold iterativeAlignment
  rw [headD_replicate]
  show (match alignAll svd (List.replicate (m + 1) A) A with
    | Except.error e => Except.error e
    | Except.ok (aligned, xfs) =>
      if msd (avgStructure aligned) A < tolSq ∨ n = 0 then
        Except.ok (xfs, msd (avgStructure aligned) A, 0 + 1)
      else iterGo svd tolSq n aligned (avgStructure aligned) (0 + 1)) = _
  rw [hall]
  show (if msd (avgStructure (List.replicate (m + 1) A)) A < tolSq ∨ n = 0
    then Except.ok (List.replicate (m + 1) (1 : M4),
      msd (avgStructure (List.replicate (m + 1) A)) A, 0 + 1)
    else _) = _
  rw [avgStructure_replicate, msd_self]
  rw [if_pos (Or.inl htol)]

/-! ## Witness input for C7 (reusing the geometry of nothing else) -/

def c7A : AtomicGroup :=
  [⟨⟨2, 0, 0⟩, 1⟩, ⟨⟨-2, 0, 0⟩, 1⟩, ⟨⟨0, 3, 0⟩, 1⟩,
   ⟨⟨0, -3, 0⟩, 1⟩, ⟨⟨0, 0, 4⟩, 1⟩, ⟨⟨0, 0, -4⟩, 1⟩]

/-- A valid SVD of the self cross-covariance `diag(8, 18, 32)` of `c7A`:
`U = Vᵗ = permP`, singular values `(32, 18, 8)` descending. -/
def c7svd : M3 → SVD3 := fun _ => ⟨permP, ![32, 18, 8], permP, 0⟩

theorem c7A_centroid : centroid c7A = 0 := by
  norm_num [centroid, c7A, coordSum, GCoord.add, GCoord.sdiv]
  rfl

theorem c7_crossCov :
    supCrossCov c7A c7A = !![8, 0, 0; 0, 18, 0; 0, 0, 32] := by
  unfold supCrossCov
  rw [centeredArray_of_centroid_zero c7A c7A_centroid]
  ext i j
  fin_cases i <;> fin_cases j <;>
    norm_num [crossCov, c7A, outer, Matrix.add_apply, Matrix.zero_apply,
      Matrix.vecHead, Matrix.vecTail]

theorem diag32188 : (Matrix.diagonal ![(32 : ℚ), 18, 8] : M3) =
    !![32, 0, 0; 0, 18, 0; 0, 0, 8] := by
  ext i j
  fin_cases i <;> fin_cases j <;>
    norm_num [Matrix.diagonal_apply, Fin.ext_iff, Matrix.vecHead,
      Matrix.vecTail]

theorem c7_valid :
    (c7svd (supCrossCov c7A c7A)).valid (supCrossCov c7A c7A) := by
  refine ⟨?_, ?_, ?_, ?_⟩
  · rw [c7_crossCov]
    show _ = permP * Matrix.diagonal ![(32 : ℚ), 18, 8] * permP
    rw [diag32188, permP, Matrix.mul_fin_three, Matrix.mul_fin_three]
    ext i j
    fin_cases i <;> fin_cases j <;>
      norm_num [Matrix.vecHead, Matrix.vecTail]
  · show permP.transpose * permP = 1
    ext i j
    fin_cases i <;> fin_cases j <;>
      norm_num [permP, Matrix.mul_apply, Fin.sum_univ_three,
        Matrix.transpose_apply, Matrix.one_apply, Fin.ext_iff,
        Matrix.vecHead, Matrix.vecTail]
  · show permP * permP.transpose = 1
    ext i j
    fin_cases i <;> fin_cases j <;>
      norm_num [permP, Matrix.mul_apply, Fin.sum_univ_three,
        Matrix.transpose_apply, Matrix.one_apply, Fin.ext_iff,
        Matrix.vecHead, Matrix.vecTail]
  · intro i
    fin_cases i <;> norm_num [c7svd, Matrix.vecHead, Matrix.vecTail]

theorem C7_witness :
    (c7svd (supCrossCov c7A c7A)).valid (supCrossCov c7A c7A) ∧
    (c7svd (supCrossCov c7A c7A)).info = 0 ∧
    (c7svd (supCrossCov c7A c7A)).S 2 < (c7svd (supCrossCov c7A c7A)).S 1 ∧
    (c7svd (supCrossCov c7A c7A)).S 1 < (c7svd (supCrossCov c7A c7A)).S 0 ∧
    0 < (c7svd (supCrossCov c7A c7A)).S 2 ∧
    (5 : ℕ) ≠ 0 ∧ (10 : ℕ) ≠ 0 ∧ (0 : ℚ) < 1 ∧
    iterativeAlignment c7svd 1 10 (List.replicate 5 c7A) =
      .ok (List.replicate 5 (1 : M4), 0, 1) :=
  ⟨c7_valid, rfl, by norm_num [c7svd], by norm_num [c7svd],
    by norm_num [c7svd], by norm_num, by norm_num, by norm_num,
    C7_iterativeAlignment_identical_copies c7A c7svd 1 5 10 c7_valid rfl
      (by norm_num [c7svd]) (by norm_num [c7svd]) (by norm_num [c7svd])
      (by norm_num) (by norm_num) (by norm_num)⟩

end Loos
